import Mathlib

/-!
Verification of the bitcoin educational library (curve.py, signature.py, b58.py,
transaction.py, identity.py, part1.py) against its natural-language specification.

Shallow embedding conventions:
* Python arbitrary-precision `int` is embedded as `ℤ` (or `ℕ` where the source
  guarantees non-negativity, e.g. byte values, lengths, the scalar of `__rmul__`
  which is guarded by `assert k >= 0`).
* Python `bytes` is embedded as `List ℕ` (each entry a byte value) and Python
  `str` as `List Char`.
* Python `%` is floor-mod (result has the sign of the divisor) and `//` is floor
  division.  Every `%` in the sources is taken at a positive modulus, where
  floor-mod coincides with Lean's `Int.emod` (`%` on `ℤ`); the extended
  Euclidean loop's `//` is embedded by `Int.fdiv`, Lean's floor division.
* Code that raises (`assert`, `ValueError`, attribute/index errors on `None`)
  is embedded in `Option`, with `none` the raising outcome.
* The point at infinity, represented in the source by the sentinel
  `Point(None, None, None)` compared by dataclass equality, is embedded as the
  dedicated constructor `Point.inf`.
-/

/-- Loop of `extended_euclidean_algorithm` (curve.py): state
`(r0, r1, s0, s1, t0, t1)`, one iteration per fuel unit.  The Python `while`
loop terminates because `|r1|` strictly decreases, so `|b| + 1` units of fuel
(supplied by the wrapper below) always suffice; fuel 0 is never reached. -/
def egcdLoop : ℕ → ℤ → ℤ → ℤ → ℤ → ℤ → ℤ → ℤ × ℤ × ℤ
  | 0, r0, _, s0, _, t0, _ => (r0, s0, t0)
  | fuel + 1, r0, r1, s0, s1, t0, t1 =>
    if r1 = 0 then (r0, s0, t0)
    else
      egcdLoop fuel r1 (r0 - r1 * (r0.fdiv r1)) s1 (s0 - s1 * (r0.fdiv r1)) t1
        (t0 - t1 * (r0.fdiv r1))

/-- Embedding of `extended_euclidean_algorithm(a, b)` (curve.py): returns
`(gcd, x, y)` with `a * x + b * y = gcd`, computed exactly as the source's
while loop with `q = r0 // r1` (floor division). -/
def extended_euclidean_algorithm (a b : ℤ) : ℤ × ℤ × ℤ :=
  egcdLoop (b.natAbs + 1) a b 1 0 0 1

/-- Embedding of `inv(n, p)` (curve.py): `x % p` where
`(gcd, x, y) = extended_euclidean_algorithm(n, p)`. -/
def inv (n p : ℤ) : ℤ :=
  (extended_euclidean_algorithm n p).2.1 % p

/-- Embedding of the `Curve` dataclass (curve.py): prime modulus `p` and
coefficients `a`, `b`. -/
structure Curve where
  p : ℤ
  a : ℤ
  b : ℤ
deriving DecidableEq

/-- Embedding of `Curve.point_is_on_curve` (curve.py).  NOTE: the source
literally computes `(y**2 - x**3 - 7) % self.p == 0`, with the constant `7`
hardcoded and the coefficients `self.a`, `self.b` unused. -/
def Curve.point_is_on_curve (c : Curve) (x y : ℤ) : Bool :=
  (y ^ 2 - x ^ 3 - 7) % c.p == 0

/-- Embedding of the `Point` dataclass (curve.py).  The source represents the
point at infinity as the sentinel `INF = Point(None, None, None)`; dataclass
equality against `INF` holds exactly for that all-`None` value, embedded here
as the constructor `Point.inf`. -/
inductive Point where
  | inf : Point
  | mk (curve : Curve) (x : ℤ) (y : ℤ) : Point
deriving DecidableEq

/-- Embedding of `INF` (curve.py). -/
def INF : Point := Point.inf

/-- Embedding of `Point.__add__` (curve.py): the elliptic curve chord-tangent
addition, with all arithmetic on the left operand's curve. -/
def Point.add (self other : Point) : Point :=
  match self, other with
  | .inf, o => o
  | .mk c x1 y1, .inf => .mk c x1 y1
  | .mk c x1 y1, .mk _ x2 y2 =>
    if x1 = x2 ∧ y1 ≠ y2 then .inf
    else
      let m : ℤ :=
        if x1 = x2 then (3 * x1 ^ 2 + c.a) * inv (2 * y1) c.p
        else (y1 - y2) * inv (x1 - x2) c.p
      let rx := (m ^ 2 - x1 - x2) % c.p
      let ry := (-(m * (rx - x1) + y1)) % c.p
      .mk c rx ry

/-- Loop of `Point.__rmul__` (curve.py), double-and-add; one iteration per
fuel unit.  Each iteration halves `k`, so the `k + 1` units of fuel supplied
by `Point.rmul` always suffice; fuel 0 is never reached. -/
def rmulLoop : ℕ → ℕ → Point → Point → Point
  | 0, _, result, _ => result
  | fuel + 1, k, result, append =>
    if k = 0 then result
    else
      rmulLoop fuel (k >>> 1) (if k &&& 1 = 1 then result.add append else result)
        (append.add append)

/-- Embedding of `Point.__rmul__` (curve.py): `k * P` by double-and-add.  The
source asserts `k >= 0`, so the scalar is a `ℕ`. -/
def Point.rmul (k : ℕ) (self : Point) : Point :=
  rmulLoop (k + 1) k Point.inf self

/-- Embedding of the `Generator` dataclass (curve.py): a base point and the
(pre-computed) order of the cyclic subgroup it generates. -/
structure Generator where
  G : Point
  n : ℕ

/-- Embedding of `bitcoin_curve` (part1.py): the secp256k1 curve constants. -/
def bitcoin_curve : Curve :=
  { p := 0xFFFFFFFFFFFFFFFFFFFFFFFFFFFFFFFFFFFFFFFFFFFFFFFFFFFFFFFEFFFFFC2F
    a := 0
    b := 7 }

/-- Embedding of the generator point `G` (part1.py). -/
def bitcoin_G : Point :=
  Point.mk bitcoin_curve
    0x79BE667EF9DCBBAC55A06295CE870B07029BFCDB2DCE28D959F2815B16F81798
    0x483ADA7726A3C4655DA4FBFC0E1108A8FD17B448A68554199C47D08FFB10D4B8

/-- Modelled from the spec: the process-wide `BITCOIN.gen` configuration value
(the module `bitcoin.py` defining `BITCOIN` is not among the sources; per the
spec the curve parameters, generator and order are the standard secp256k1
constants, which are spelled out in part1.py as `bitcoin_gen`). -/
def bitcoin_gen : Generator :=
  { G := bitcoin_G
    n := 0xFFFFFFFFFFFFFFFFFFFFFFFFFFFFFFFEBAAEDCE6AF48A03BBFD25E8CD0364141 }

/-- Embedding of the `Signature` dataclass (signature.py). -/
structure Signature where
  r : ℤ
  s : ℤ
deriving DecidableEq

/-- Big-endian fixed-width byte encoding: Python `i.to_bytes(nbytes, 'big')`
for an in-range `i`. -/
def to_bytes_big (i : ℕ) (nbytes : ℕ) : List ℕ :=
  ((List.range nbytes).map fun k => i / 256 ^ k % 256).reverse

/-- Embedding of the helper `dern(n)` inside `Signature.encode`
(signature.py): 32-byte big-endian encoding, leading zero bytes stripped, a
`0x00` byte prepended when the top bit of the first remaining byte is set.
Python raises for `n` outside `[0, 2^256)` (`to_bytes` overflow) and for
`n = 0` (index `nb[0]` into the empty string); both are `none` here. -/
def dern (n : ℤ) : Option (List ℕ) :=
  if 0 ≤ n ∧ n < 2 ^ 256 then
    let nb := (to_bytes_big n.toNat 32).dropWhile (· == 0)
    match nb with
    | [] => none
    | b0 :: rest => some ((if 0x80 ≤ b0 then [0x00] else []) ++ b0 :: rest)
  else none

/-- Embedding of `Signature.encode` (signature.py): the DER encoding
`0x30, len(content), content` with `content = 0x02, len(rb), rb, 0x02,
len(sb), sb`. -/
def Signature.encode (sig : Signature) : Option (List ℕ) := do
  let rb ← dern sig.r
  let sb ← dern sig.s
  let content := [0x02, rb.length] ++ rb ++ [0x02, sb.length] ++ sb
  return [0x30, content.length] ++ content

/-- Embedding of `sign(secret_key, message)` (signature.py).  Modelled from
the spec where the sources are incomplete: `sha256` (module missing from the
sources) is per the spec an external black-box 32-byte-digest function, so the
already-hashed value `z = int.from_bytes(sha256(sha256(message)), 'big')` is
taken as the input `z`; the ephemeral key `sk = random.randrange(1, n)` drawn
inside the source is taken as the input `nonce`.  The source computes
`r = P.x` with no reduction mod `n`; if `P` were `INF`, `P.x` is `None` and
the arithmetic on it raises (`none` here).  The source's test `s > n / 2`
uses Python float division `n / 2`; it is modelled as the exact comparison
`2 * s > n`. -/
def sign (secret_key : ℤ) (z : ℕ) (nonce : ℕ) : Option Signature :=
  let n : ℤ := (bitcoin_gen.n : ℤ)
  match Point.rmul nonce bitcoin_gen.G with
  | .inf => none
  | .mk _ x _ =>
    let r := x
    let s := inv (nonce : ℤ) n * ((z : ℤ) + secret_key * r) % n
    let s := if 2 * s > n then n - s else s
    some { r := r, s := s }

/-- Embedding of `verify(public_key, message, sig)` (signature.py): the body
is the single statement `pass`, so the function returns Python `None` for
every input (embedded as `none`), never a boolean. -/
def verify (_public_key : Point) (_message : List ℕ) (_sig : Signature) : Option Bool :=
  none

/-- Embedding of `alphabet` (b58.py). -/
def alphabet : List Char :=
  "123456789ABCDEFGHJKLMNPQRSTUVWXYZabcdefghijkmnopqrstuvwxyz".toList

/-- Big-endian integer value of a byte string: Python
`int.from_bytes(b, 'big')`. -/
def from_bytes_big (b : List ℕ) : ℕ :=
  b.foldl (fun acc d => acc * 256 + d) 0

/-- Loop of `b58encode` (b58.py): the `while n:` loop appending
`alphabet[n % 58]` and replacing `n` by `n // 58`; one iteration per fuel
unit.  Each iteration strictly decreases `n`, so the `n + 1` units of fuel
supplied by `b58encode` always suffice; fuel 0 is never reached. -/
def b58charsLoop : ℕ → ℕ → List Char
  | 0, _ => []
  | fuel + 1, n =>
    if n = 0 then []
    else alphabet.getD (n % 58) 'A' :: b58charsLoop fuel (n / 58)

/-- Embedding of `b58encode(b)` (b58.py): leading zero bytes become leading
copies of `alphabet[0]`, the remaining integer value becomes its base-58
digits, most significant first. -/
def b58encode (b : List ℕ) : List Char :=
  let n := from_bytes_big b
  let chars := b58charsLoop (n + 1) n
  let num_leading_zeros := b.length - (b.dropWhile (· == 0)).length
  List.replicate num_leading_zeros (alphabet.getD 0 'A') ++ chars.reverse

/-- Embedding of `encode_int(i, nbytes)` (transaction.py) with the default
little-endian byte order.  The source raises for out-of-range `i`; the claims
only use in-range values, where this definition agrees with the source. -/
def encode_int (i : ℕ) (nbytes : ℕ) : List ℕ :=
  (List.range nbytes).map fun k => i / 256 ^ k % 256

/-- Embedding of `encode_varint(i)` (transaction.py); the final
`ValueError` branch is `none`. -/
def encode_varint (i : ℕ) : Option (List ℕ) :=
  if i < 0xFD then some [i]
  else if i < 0x10000 then some (0xFD :: encode_int i 2)
  else if i < 0x100000000 then some (0xFE :: encode_int i 4)
  else if i < 0x10000000000000000 then some (0xFF :: encode_int i 8)
  else none

/-- One element of `Script.cmds` (transaction.py): a Python `int` opcode or a
`bytes` data push. -/
inductive Cmd where
  | op (v : ℕ) : Cmd
  | push (bs : List ℕ) : Cmd
deriving DecidableEq

/-- Encoding of one script command, from the loop body of `Script.encode`
(transaction.py): an opcode is its single byte; a data push is a length byte
(the source asserts `length < 75`, `none` otherwise) followed by the bytes. -/
def Cmd.encodeOne : Cmd → Option (List ℕ)
  | .op v => some (encode_int v 1)
  | .push bs => if bs.length < 75 then some (encode_int bs.length 1 ++ bs) else none

/-- Embedding of the `Script` dataclass (transaction.py). -/
structure Script where
  cmds : List Cmd
deriving DecidableEq

/-- Embedding of `Script.encode` (transaction.py): the concatenated command
encodings, prefixed by their total byte length as a varint. -/
def Script.encode (s : Script) : Option (List ℕ) := do
  let parts ← s.cmds.mapM Cmd.encodeOne
  let ret := parts.flatten
  let lenBytes ← encode_varint ret.length
  return lenBytes ++ ret

/-- Embedding of the `Net` enum (transaction.py). -/
inductive Net where
  | MAIN : Net
  | TEST : Net
deriving DecidableEq

/-- Version byte of a network (the enum values in transaction.py). -/
def Net.value : Net → List ℕ
  | .MAIN => [0x00]
  | .TEST => [0x6F]

/-- Embedding of the `TxIn` dataclass (transaction.py). -/
structure TxIn where
  net : Net
  prev_tx : List ℕ
  prev_index : ℕ
  prev_tx_script_pubkey : Script
  script_sig : Option Script := none
  sequence : ℕ := 0xFFFFFFFF
deriving DecidableEq

/-- The tri-state `script_override` argument of `TxIn.encode`
(transaction.py): Python `None` (use the actual `script_sig`), `True`
(substitute the previous output's locking script) and `False` (use an empty
script). -/
inductive ScriptOverride where
  | actual : ScriptOverride
  | substitute : ScriptOverride
  | empty : ScriptOverride
deriving DecidableEq

/-- Embedding of `TxIn.encode` (transaction.py): reversed previous
transaction id, 4-byte little-endian previous index, the selected script, and
the 4-byte little-endian sequence.  In the `actual` mode a missing
`script_sig` raises in Python (`None.encode()`), `none` here. -/
def TxIn.encode (txin : TxIn) (script_override : ScriptOverride) : Option (List ℕ) := do
  let script ←
    match script_override with
    | .actual =>
      match txin.script_sig with
      | some s => s.encode
      | none => none
    | .substitute => txin.prev_tx_script_pubkey.encode
    | .empty => Script.encode { cmds := [] }
  return txin.prev_tx.reverse ++ encode_int txin.prev_index 4 ++ script
    ++ encode_int txin.sequence 4

/-- Embedding of the `TxOut` dataclass (transaction.py). -/
structure TxOut where
  amount : ℕ
  script_pubkey : Script
deriving DecidableEq

/-- Embedding of `TxOut.encode` (transaction.py). -/
def TxOut.encode (txout : TxOut) : Option (List ℕ) := do
  let s ← txout.script_pubkey.encode
  return encode_int txout.amount 8 ++ s

/-- Embedding of the `Tx` dataclass (transaction.py). -/
structure Tx where
  version : ℕ
  tx_ins : List TxIn
  tx_outs : List TxOut
  locktime : ℕ := 0
deriving DecidableEq

/-- Embedding of `Tx.encode` (transaction.py).  The Python sentinel
`sig_index = -1` (plain serialization) is `none`; `sig_index = i ≥ 0` (build
the signing message for input `i`) is `some i`.  With `some i`, input number
`j` is encoded with `script_override = (i == j)`: the previous locking script
for `j = i`, the empty script otherwise, and the 4-byte little-endian
constant 1 (SIGHASH_ALL) is appended. -/
def Tx.encode (tx : Tx) (sig_index : Option ℕ) : Option (List ℕ) := do
  let ins ←
    match sig_index with
    | none => tx.tx_ins.mapM fun txin => txin.encode .actual
    | some i =>
      tx.tx_ins.enum.mapM fun ji =>
        ji.2.encode (if i = ji.1 then .substitute else .empty)
  let insCnt ← encode_varint tx.tx_ins.length
  let outs ← tx.tx_outs.mapM TxOut.encode
  let outsCnt ← encode_varint tx.tx_outs.length
  return encode_int tx.version 4 ++ insCnt ++ ins.flatten ++ outsCnt ++ outs.flatten
    ++ encode_int tx.locktime 4
    ++ (match sig_index with | some _ => encode_int 1 4 | none => [])

/-! ## Correctness of the extended Euclidean algorithm and `inv` -/

/-- Euclidean recurrence for `Int.gcd` with the second argument replaced by the
remainder. -/
theorem int_gcd_rec (n p : ℤ) : Int.gcd n p = Int.gcd p (n % p) := by
  apply Nat.dvd_antisymm
  · have h1 : (↑(Int.gcd n p) : ℤ) ∣ n := Int.gcd_dvd_left
    have h2 : (↑(Int.gcd n p) : ℤ) ∣ p := Int.gcd_dvd_right
    have h3 : (↑(Int.gcd n p) : ℤ) ∣ n % p := by
      rw [Int.emod_def]
      exact dvd_sub h1 (Dvd.dvd.mul_right h2 _)
    exact Int.natCast_dvd_natCast.mp (Int.dvd_gcd h2 h3)
  · have h1 : (↑(Int.gcd p (n % p)) : ℤ) ∣ p := Int.gcd_dvd_left
    have h2 : (↑(Int.gcd p (n % p)) : ℤ) ∣ n % p := Int.gcd_dvd_right
    have h3 : (↑(Int.gcd p (n % p)) : ℤ) ∣ n := by
      have hsplit : p * (n / p) + n % p = n := Int.ediv_add_emod n p
      have hdvd := dvd_add (Dvd.dvd.mul_right h1 (n / p)) h2
      rwa [hsplit] at hdvd
    exact Int.natCast_dvd_natCast.mp (Int.dvd_gcd h3 h1)

/-- Invariant of the extended Euclidean loop once the state is non-negative:
the result satisfies the Bezout identity for `a`, `b`, is positive, and its
absolute value is the gcd of the two remainders. -/
theorem egcdLoop_spec (a b : ℤ) :
    ∀ (fuel : ℕ) (r0 r1 s0 s1 t0 t1 : ℤ),
      r1.natAbs < fuel → 0 < r0 → 0 ≤ r1 →
      a * s0 + b * t0 = r0 → a * s1 + b * t1 = r1 →
      a * (egcdLoop fuel r0 r1 s0 s1 t0 t1).2.1 + b * (egcdLoop fuel r0 r1 s0 s1 t0 t1).2.2
          = (egcdLoop fuel r0 r1 s0 s1 t0 t1).1
        ∧ 0 < (egcdLoop fuel r0 r1 s0 s1 t0 t1).1
        ∧ ((egcdLoop fuel r0 r1 s0 s1 t0 t1).1).natAbs = Int.gcd r0 r1 := by
  intro fuel
  induction fuel with
  | zero =>
    intro r0 r1 s0 s1 t0 t1 hfuel
    omega
  | succ fuel ih =>
    intro r0 r1 s0 s1 t0 t1 hfuel hr0 hr1 hb0 hb1
    by_cases h : r1 = 0
    · subst h
      have hred : egcdLoop (fuel + 1) r0 0 s0 s1 t0 t1 = (r0, s0, t0) := by
        simp [egcdLoop]
      rw [hred]
      exact ⟨hb0, hr0, (Int.gcd_zero_right r0).symm⟩
    · have hr1pos : 0 < r1 := lt_of_le_of_ne hr1 (Ne.symm h)
      have hfd : r0.fdiv r1 = r0 / r1 := Int.fdiv_eq_ediv _ hr1
      have hstep : egcdLoop (fuel + 1) r0 r1 s0 s1 t0 t1
          = egcdLoop fuel r1 (r0 % r1) s1 (s0 - s1 * (r0 / r1)) t1 (t0 - t1 * (r0 / r1)) := by
        simp only [egcdLoop, if_neg h, hfd]
        rw [show r0 - r1 * (r0 / r1) = r0 % r1 from (Int.emod_def r0 r1).symm]
      rw [hstep]
      have hmnn : 0 ≤ r0 % r1 := Int.emod_nonneg r0 h
      have hmlt : r0 % r1 < r1 := Int.emod_lt_of_pos r0 hr1pos
      have h1 : (r0 % r1).natAbs < fuel := by omega
      have h3 : a * (s0 - s1 * (r0 / r1)) + b * (t0 - t1 * (r0 / r1)) = r0 % r1 := by
        rw [Int.emod_def]
        linear_combination hb0 - (r0 / r1) * hb1
      obtain ⟨hx, hy, hz⟩ := ih r1 (r0 % r1) s1 _ t1 _ h1 hr1pos hmnn hb1 h3
      exact ⟨hx, hy, by rw [hz, ← int_gcd_rec]⟩

/-- C7: for every pair of integers `n` and `p` with `p > 1` and
`gcd(n, p) = 1` (`n` may be negative), `inv n p` returns an integer in
`[0, p − 1]` with `(n * inv n p) mod p = 1`. -/
theorem inv_returns_modular_inverse (n p : ℤ) (hp : 1 < p) (hco : Int.gcd n p = 1) :
    0 ≤ inv n p ∧ inv n p < p ∧ n * inv n p % p = 1 := by
  have hppos : 0 < p := by omega
  have hpne : p ≠ 0 := by omega
  have hfd : n.fdiv p = n / p := Int.fdiv_eq_ediv _ hppos.le
  have hstep : extended_euclidean_algorithm n p
      = egcdLoop p.natAbs p (n % p) 0 (1 - 0 * (n / p)) 1 (0 - 1 * (n / p)) := by
    unfold extended_euclidean_algorithm
    simp only [egcdLoop, if_neg hpne, hfd]
    rw [show n - p * (n / p) = n % p from (Int.emod_def n p).symm]
  have hmnn : 0 ≤ n % p := Int.emod_nonneg n hpne
  have hmlt : n % p < p := Int.emod_lt_of_pos n hppos
  have hfuel : (n % p).natAbs < p.natAbs := by omega
  have hb0 : n * 0 + p * 1 = p := by ring
  have hb1 : n * (1 - 0 * (n / p)) + p * (0 - 1 * (n / p)) = n % p := by
    rw [Int.emod_def]
    ring
  obtain ⟨hbez, hgpos, hgabs⟩ :=
    egcdLoop_spec n p p.natAbs p (n % p) 0 (1 - 0 * (n / p)) 1 (0 - 1 * (n / p))
      hfuel hppos hmnn hb0 hb1
  rw [← hstep] at hbez hgpos hgabs
  rw [← int_gcd_rec, hco] at hgabs
  have hg1 : (extended_euclidean_algorithm n p).1 = 1 := by omega
  rw [hg1] at hbez
  unfold inv
  refine ⟨Int.emod_nonneg _ hpne, Int.emod_lt_of_pos _ hppos, ?_⟩
  set x := (extended_euclidean_algorithm n p).2.1 with hxdef
  set y := (extended_euclidean_algorithm n p).2.2 with hydef
  have hmul : n * (x % p) % p = n * x % p := by
    rw [Int.mul_emod n (x % p) p, Int.emod_emod_of_dvd x dvd_rfl, ← Int.mul_emod]
  rw [hmul]
  have hx1 : n * x = 1 + p * (-y) := by linarith
  rw [hx1, Int.add_mul_emod_self_left]
  exact Int.emod_eq_of_lt (by omega) (by omega)

/-- Witness for C7 at the concrete input `n = -5`, `p = 7`. -/
theorem inv_returns_modular_inverse_witness :
    (1 : ℤ) < 7 ∧ Int.gcd (-5 : ℤ) 7 = 1
      ∧ (0 ≤ inv (-5) 7 ∧ inv (-5) 7 < 7 ∧ (-5 : ℤ) * inv (-5) 7 % 7 = 1) :=
  ⟨by decide, by decide, inv_returns_modular_inverse (-5) 7 (by decide) (by decide)⟩

/-! ## The on-curve predicate, the verify stub, and the missing sign retries -/

/-- C3: the claim is false of the code — `point_is_on_curve` hardcodes the
constant 7 instead of using the curve's own `a`, `b` coefficients.  On the
curve `(p, a, b) = (7, 0, 2)` the point `(0, 3)` satisfies the genuine curve
equation `y² ≡ x³ + a·x + b (mod p)` yet is rejected, while on
`(11, 0, 3)` the point `(2, 2)` violates the genuine equation yet is
accepted. -/
theorem point_is_on_curve_ignores_curve_coefficients :
    (Curve.point_is_on_curve { p := 7, a := 0, b := 2 } 0 3 = false
        ∧ ((3 : ℤ) ^ 2 - 0 ^ 3 - 0 * 0 - 2) % 7 = 0)
      ∧ (Curve.point_is_on_curve { p := 11, a := 0, b := 3 } 2 2 = true
        ∧ ((2 : ℤ) ^ 2 - 2 ^ 3 - 0 * 2 - 3) % 11 ≠ 0) := by
  decide

/-- C4: the claim is false of the code — `verify` is a stub whose body is
`pass`, so it returns Python `None` for every public key, message and
signature, never the boolean required by the claim. -/
theorem verify_always_returns_none :
    ∀ (public_key : Point) (message : List ℕ) (sig : Signature),
      verify public_key message sig = none :=
  fun _ _ _ => rfl

/-- C2: the claim is false of the code — with secret key 1, nonce 1 (so
`R = G` and `r = G.x < n`) and digest value `z = n − G.x` (a legitimate
32-byte digest value of the black-box hash), `sign` returns `s = 0`,
violating `1 ≤ s ≤ n − 1` and `s ∈ [1, n/2]`; there is no retry. -/
theorem sign_returns_s_zero_for_adversarial_digest :
    sign 1
        (bitcoin_gen.n - 0x79BE667EF9DCBBAC55A06295CE870B07029BFCDB2DCE28D959F2815B16F81798) 1
      = some { r := 0x79BE667EF9DCBBAC55A06295CE870B07029BFCDB2DCE28D959F2815B16F81798, s := 0 } := by
  decide

/-- C8: the claim is false of the code — `sign` has no retry loop at all:
with secret key 2, nonce 1 and digest value `z = n − 2·G.x`, the computed
`s` is 0 and `sign` returns it unchanged instead of redrawing the nonce. -/
theorem sign_has_no_retry_on_s_zero :
    sign 2
        (bitcoin_gen.n - 2 * 0x79BE667EF9DCBBAC55A06295CE870B07029BFCDB2DCE28D959F2815B16F81798) 1
      = some { r := 0x79BE667EF9DCBBAC55A06295CE870B07029BFCDB2DCE28D959F2815B16F81798, s := 0 } := by
  decide

/-! ## Base58 encoding (b58.py) -/

/-- The character loop of `b58encode` produces exactly the base-58 digits of
`n` (least significant first), mapped through the alphabet. -/
theorem b58charsLoop_eq_digits :
    ∀ (fuel n : ℕ), n < fuel →
      b58charsLoop fuel n = (Nat.digits 58 n).map fun d => alphabet.getD d 'A' := by
  intro fuel
  induction fuel with
  | zero => intro n h; omega
  | succ fuel ih =>
    intro n h
    by_cases hn : n = 0
    · subst hn
      simp [b58charsLoop]
    · have hpos : 0 < n := Nat.pos_of_ne_zero hn
      have hdiv : n / 58 < n := Nat.div_lt_self hpos (by norm_num)
      have hstep : b58charsLoop (fuel + 1) n
          = alphabet.getD (n % 58) 'A' :: b58charsLoop fuel (n / 58) := by
        simp [b58charsLoop, hn]
      rw [hstep, Nat.digits_def' (by norm_num : (1 : ℕ) < 58) hpos, List.map_cons,
        ih (n / 58) (by omega)]

/-- Dropping leading zeros ignores a block of zero bytes in front. -/
theorem dropWhile_zero_replicate_append (j : ℕ) (l : List ℕ) :
    (List.replicate j 0 ++ l).dropWhile (· == 0) = l.dropWhile (· == 0) :=
  List.dropWhile_append_of_pos fun a ha => by
    rw [List.eq_of_mem_replicate ha]
    rfl

/-- Dropping leading zeros is the identity when the head is not a zero. -/
theorem dropWhile_zero_of_head_ne (l : List ℕ) (h : l.head? ≠ some 0) :
    l.dropWhile (· == 0) = l := by
  cases l with
  | nil => rfl
  | cons a t =>
    have ha : (a == 0) = false := by
      have : a ≠ 0 := fun e => h (by rw [e]; rfl)
      simpa using this
    simp [List.dropWhile_cons, ha]

/-- Characterization of `b58encode`: a run of `'1'` characters for the
leading zero bytes, then the base-58 digits of the integer value, most
significant first. -/
theorem b58encode_eq (b : List ℕ) :
    b58encode b
      = List.replicate (b.length - (b.dropWhile (· == 0)).length) '1'
        ++ ((Nat.digits 58 (from_bytes_big b)).reverse.map fun d => alphabet.getD d 'A') := by
  show List.replicate (b.length - (b.dropWhile (· == 0)).length) (alphabet.getD 0 'A')
      ++ (b58charsLoop (from_bytes_big b + 1) (from_bytes_big b)).reverse = _
  rw [b58charsLoop_eq_digits _ _ (Nat.lt_succ_self _), ← List.map_reverse]
  have h1 : alphabet.getD 0 'A' = '1' := rfl
  rw [h1]

/-- C9: for every byte string with exactly `k` leading zero bytes,
`b58encode` yields `k` copies of the zero-value character `'1'` followed by
the big-endian base-58 digits of the byte string's integer value (the value 0
contributing no digits), and `b58encode` of the empty byte string is the
empty string. -/
theorem b58encode_leading_zeros_then_digits :
    (∀ (b : List ℕ) (k : ℕ) (rest : List ℕ),
        b = List.replicate k 0 ++ rest → rest.head? ≠ some 0 →
        b58encode b
          = List.replicate k '1'
            ++ ((Nat.digits 58 (from_bytes_big b)).reverse.map fun d => alphabet.getD d 'A'))
      ∧ b58encode [] = [] := by
  constructor
  · rintro b k rest rfl hrest
    rw [b58encode_eq]
    have hcount : (List.replicate k (0 : ℕ) ++ rest).length
        - ((List.replicate k (0 : ℕ) ++ rest).dropWhile (· == 0)).length = k := by
      rw [dropWhile_zero_replicate_append, dropWhile_zero_of_head_ne rest hrest]
      simp
    rw [hcount]
  · rfl

/-- Witness for C9 at the byte string `0x00 0x00 'a' 'b' 'c'`
(two leading zero bytes). -/
theorem b58encode_leading_zeros_then_digits_witness :
    b58encode [0, 0, 97, 98, 99]
      = List.replicate 2 '1'
        ++ ((Nat.digits 58 (from_bytes_big [0, 0, 97, 98, 99])).reverse.map
            fun d => alphabet.getD d 'A') :=
  b58encode_leading_zeros_then_digits.1 [0, 0, 97, 98, 99] 2 [97, 98, 99] rfl (by decide)

/-! ## DER encoding of signatures (signature.py) -/

/-- Minimal big-endian byte representation of a natural number: its base-256
digits, most significant first (the empty list for 0). -/
def der_min_bytes (x : ℕ) : List ℕ :=
  (Nat.digits 256 x).reverse

/-- The DER integer body described by the spec: the minimal big-endian
representation with a single `0x00` byte in front exactly when the high bit
of the first remaining byte is set. -/
def der_int_bytes (x : ℕ) : List ℕ :=
  (if 128 ≤ (der_min_bytes x).headI then [0] else []) ++ der_min_bytes x

/-- The DER content described by the spec: each of the two integer bodies
wrapped as `0x02, length, bytes`, concatenated. -/
def der_content (rn sn : ℕ) : List ℕ :=
  [0x02, (der_int_bytes rn).length] ++ der_int_bytes rn
    ++ [0x02, (der_int_bytes sn).length] ++ der_int_bytes sn

/-- Unfolding of the big-endian fixed-width encoding by the lowest byte. -/
theorem to_bytes_big_succ (x n : ℕ) :
    to_bytes_big x (n + 1) = to_bytes_big (x / 256) n ++ [x % 256] := by
  unfold to_bytes_big
  rw [List.range_succ_eq_map, List.map_cons, List.map_map, List.reverse_cons]
  congr 2
  · apply List.map_congr_left
    intro k _
    show x / 256 ^ (k + 1) % 256 = x / 256 / 256 ^ k % 256
    rw [Nat.div_div_eq_div_mul, ← pow_succ']
  · simp

/-- The fixed-width big-endian encoding is the minimal one left-padded with
zero bytes. -/
theorem to_bytes_big_eq_pad_digits :
    ∀ (n x : ℕ), x < 256 ^ n →
      to_bytes_big x n
        = List.replicate (n - (Nat.digits 256 x).length) 0 ++ (Nat.digits 256 x).reverse := by
  intro n
  induction n with
  | zero =>
    intro x hx
    have hx0 : x = 0 := by simpa using hx
    subst hx0
    simp [to_bytes_big]
  | succ n ih =>
    intro x hx
    rw [to_bytes_big_succ]
    by_cases hx0 : x = 0
    · subst hx0
      rw [Nat.zero_div, ih 0 (Nat.pos_pow_of_pos n (by norm_num))]
      simp [← List.replicate_succ']
    · have hpos : 0 < x := Nat.pos_of_ne_zero hx0
      have hdivlt : x / 256 < 256 ^ n := by
        rw [Nat.div_lt_iff_lt_mul (by norm_num : (0 : ℕ) < 256)]
        calc x < 256 ^ (n + 1) := hx
          _ = 256 ^ n * 256 := by rw [pow_succ]
      rw [ih (x / 256) hdivlt, Nat.digits_def' (by norm_num : (1 : ℕ) < 256) hpos,
        List.reverse_cons, List.length_cons]
      rw [show n + 1 - ((Nat.digits 256 (x / 256)).length + 1)
          = n - (Nat.digits 256 (x / 256)).length from by omega]
      rw [List.append_assoc]

/-- Stripping the leading zero bytes of the 32-byte encoding leaves exactly
the minimal big-endian representation. -/
theorem dropWhile_to_bytes_big (x : ℕ) (hx : 0 < x) (hlt : x < 256 ^ 32) :
    (to_bytes_big x 32).dropWhile (· == 0) = (Nat.digits 256 x).reverse := by
  rw [to_bytes_big_eq_pad_digits 32 x hlt, dropWhile_zero_replicate_append]
  apply dropWhile_zero_of_head_ne
  rw [List.head?_reverse]
  have hne : Nat.digits 256 x ≠ [] := Nat.digits_ne_nil_iff_ne_zero.mpr (by omega)
  rw [List.getLast?_eq_getLast _ hne]
  intro hsome
  exact Nat.getLast_digit_ne_zero 256 (show x ≠ 0 by omega) (Option.some.inj hsome)

/-- The helper `dern` agrees with the spec's DER integer body on `[1, 2^256)`. -/
theorem dern_eq_der_int_bytes (x : ℤ) (h1 : 1 ≤ x) (h2 : x < 2 ^ 256) :
    dern x = some (der_int_bytes x.toNat) := by
  have hx0 : (0 : ℤ) ≤ x := by omega
  have hnat : x.toNat < 256 ^ 32 := by
    have hpow : ((256 ^ 32 : ℕ) : ℤ) = 2 ^ 256 := by norm_num
    have := (Int.toNat_lt' (by norm_num : (256 : ℕ) ^ 32 ≠ 0)).mpr (hpow ▸ h2)
    exact this
  have hpos : 0 < x.toNat := by omega
  have hds := dropWhile_to_bytes_big x.toNat hpos hnat
  have hne : Nat.digits 256 x.toNat ≠ [] := Nat.digits_ne_nil_iff_ne_zero.mpr (by omega)
  obtain ⟨d, t, hform⟩ : ∃ d t, (Nat.digits 256 x.toNat).reverse = d :: t := by
    cases hrev : (Nat.digits 256 x.toNat).reverse with
    | nil => exact absurd (List.reverse_eq_nil_iff.mp hrev) hne
    | cons d t => exact ⟨d, t, rfl⟩
  show (if 0 ≤ x ∧ x < 2 ^ 256 then _ else none) = _
  rw [if_pos ⟨hx0, h2⟩]
  show (match (to_bytes_big x.toNat 32).dropWhile (· == 0) with
    | [] => none
    | b0 :: rest => some ((if 0x80 ≤ b0 then [0x00] else []) ++ b0 :: rest))
      = some (der_int_bytes x.toNat)
  rw [hds, hform]
  unfold der_int_bytes der_min_bytes
  rw [hform]
  rfl

/-- C6: for every signature with `1 ≤ r ≤ n − 1` and `1 ≤ s ≤ n − 1`,
`Signature.encode` returns `0x30 ‖ length(content) ‖ content` where
`content` wraps, for each of `r` and `s`, the minimal big-endian
representation (leading zero bytes stripped) with a `0x00` byte prepended
exactly when the high bit of the remaining first byte is set, each as
`0x02 ‖ length ‖ bytes`. -/
theorem signature_encode_is_der (r s : ℤ)
    (hr1 : 1 ≤ r) (hr2 : r ≤ (bitcoin_gen.n : ℤ) - 1)
    (hs1 : 1 ≤ s) (hs2 : s ≤ (bitcoin_gen.n : ℤ) - 1) :
    Signature.encode { r := r, s := s }
      = some ([0x30, (der_content r.toNat s.toNat).length]
          ++ der_content r.toNat s.toNat) := by
  have hn : (bitcoin_gen.n : ℤ) - 1 < 2 ^ 256 := by norm_num [bitcoin_gen]
  have hrd := dern_eq_der_int_bytes r hr1 (by omega)
  have hsd := dern_eq_der_int_bytes s hs1 (by omega)
  show (do
    let rb ← dern r
    let sb ← dern s
    let content := [0x02, rb.length] ++ rb ++ [0x02, sb.length] ++ sb
    return [0x30, content.length] ++ content)
      = some ([0x30, (der_content r.toNat s.toNat).length] ++ der_content r.toNat s.toNat)
  rw [hrd, hsd]
  show some _ = some _
  unfold der_content
  simp [List.append_assoc]

/-- Witness for C6 at the concrete signature `(r, s) = (1, 128)` (the `s`
body exercises the `0x00` padding branch). -/
theorem signature_encode_is_der_witness :
    Signature.encode { r := 1, s := 128 }
      = some ([0x30, (der_content (1 : ℤ).toNat (128 : ℤ).toNat).length]
          ++ der_content (1 : ℤ).toNat (128 : ℤ).toNat) :=
  signature_encode_is_der 1 128 (by norm_num) (by norm_num [bitcoin_gen])
    (by norm_num) (by norm_num [bitcoin_gen])

/-! ## The sighash construction (transaction.py) -/

/-- The substitution described by the sighash claim: input `i` gets its
previous output's locking script as unlocking script, every other input gets
the empty script. -/
def sighashSubstitute (tx : Tx) (i : ℕ) : Tx :=
  { tx with
    tx_ins := tx.tx_ins.enum.map fun ji =>
      { ji.2 with
        script_sig := some (if i = ji.1 then ji.2.prev_tx_script_pubkey else { cmds := [] }) } }

/-- Per-input step of the substitution: encoding the substituted input in
`actual` mode is the sighash-mode encoding of the original input. -/
theorem txin_encode_substituted (t : TxIn) (i j : ℕ) :
    TxIn.encode
        { t with script_sig := some (if i = j then t.prev_tx_script_pubkey else { cmds := [] }) }
        .actual
      = TxIn.encode t (if i = j then .substitute else .empty) := by
  by_cases h : i = j <;> simp [TxIn.encode, h]

/-- List-level form of the substitution step, over an enumeration starting at
any index. -/
theorem mapM_enumFrom_substituted (i : ℕ) :
    ∀ (l : List TxIn) (k : ℕ),
      ((List.enumFrom k l).map fun ji =>
          ({ ji.2 with
              script_sig :=
                some (if i = ji.1 then ji.2.prev_tx_script_pubkey else { cmds := [] }) } : TxIn)).mapM
          (fun t => TxIn.encode t .actual)
        = (List.enumFrom k l).mapM fun ji =>
            ji.2.encode (if i = ji.1 then .substitute else .empty) := by
  intro l
  induction l with
  | nil => intro k; rfl
  | cons t l ih =>
    intro k
    show (({ t with script_sig := some (if i = k then t.prev_tx_script_pubkey else { cmds := [] }) } : TxIn)
          :: (List.enumFrom (k + 1) l).map _).mapM (fun t => TxIn.encode t .actual)
        = ((k, t) :: List.enumFrom (k + 1) l).mapM fun ji =>
            ji.2.encode (if i = ji.1 then .substitute else .empty)
    rw [List.mapM_cons, List.mapM_cons, txin_encode_substituted t i k, ih (k + 1)]

/-- C1: for every transaction with at least one input and every valid input
index `i`, the signing message `Tx.encode (some i)` is exactly the final
serialization of the transaction in which input `i` carries its previous
output's locking script and every other input carries the empty script,
followed by exactly 4 extra bytes `[1, 0, 0, 0]` (the integer 1 in
little-endian form, SIGHASH_ALL); version, input count, reversed previous
transaction ids, previous indices, sequences, outputs and locktime are
therefore encoded exactly as in the final serialization. -/
theorem tx_encode_sig_index_substitutes (tx : Tx) (i : ℕ)
    (_h0 : tx.tx_ins ≠ []) (_hi : i < tx.tx_ins.length) :
    Tx.encode tx (some i)
      = (Tx.encode (sighashSubstitute tx i) none).map fun bs => bs ++ [1, 0, 0, 0] := by
  have hins : ((sighashSubstitute tx i).tx_ins).mapM (fun txin => TxIn.encode txin .actual)
      = tx.tx_ins.enum.mapM fun ji => ji.2.encode (if i = ji.1 then .substitute else .empty) := by
    exact mapM_enumFrom_substituted i tx.tx_ins 0
  have hlen : (sighashSubstitute tx i).tx_ins.length = tx.tx_ins.length := by
    show ((List.enumFrom 0 tx.tx_ins).map _).length = _
    rw [List.length_map, List.enumFrom_length]
  have h14 : encode_int 1 4 = [1, 0, 0, 0] := rfl
  have houts : (sighashSubstitute tx i).tx_outs = tx.tx_outs := rfl
  have hver : (sighashSubstitute tx i).version = tx.version := rfl
  have hlock : (sighashSubstitute tx i).locktime = tx.locktime := rfl
  simp only [Tx.encode]
  rw [hins, hlen, houts, hver, hlock]
  cases hI : tx.tx_ins.enum.mapM
      (fun ji => ji.2.encode (if i = ji.1 then ScriptOverride.substitute else ScriptOverride.empty)) with
  | none => rfl
  | some ins =>
    cases hC1 : encode_varint tx.tx_ins.length with
    | none => rfl
    | some insCnt =>
      cases hO : tx.tx_outs.mapM TxOut.encode with
      | none => rfl
      | some outs =>
        cases hC2 : encode_varint tx.tx_outs.length with
        | none => rfl
        | some outsCnt => simp [h14]

/-- Erasing the unlocking script of an input (used to state that the signing
message is independent of `script_sig`). -/
def TxIn.delSig (t : TxIn) : TxIn :=
  { t with script_sig := none }

/-- Erasing every input's unlocking script of a transaction. -/
def Tx.delSigs (tx : Tx) : Tx :=
  { tx with tx_ins := tx.tx_ins.map TxIn.delSig }

/-- Inputs that agree except possibly on `script_sig` encode identically in
the two sighash modes (which never read `script_sig`). -/
theorem txin_encode_nonactual_of_delSig_eq (a b : TxIn) (h : a.delSig = b.delSig)
    (m : ScriptOverride) (hm : m ≠ ScriptOverride.actual) :
    TxIn.encode a m = TxIn.encode b m := by
  cases a with
  | mk an ap ai as asg aseq =>
    cases b with
    | mk bn bp bi bs bsg bseq =>
      simp only [TxIn.delSig, TxIn.mk.injEq] at h
      obtain ⟨rfl, rfl, rfl, rfl, -, rfl⟩ := h
      cases m with
      | actual => exact absurd rfl hm
      | substitute => rfl
      | empty => rfl

/-- List-level form: two input lists that agree after erasing `script_sig`
produce the same sighash-mode encodings. -/
theorem mapM_enumFrom_delSig (i : ℕ) :
    ∀ (l1 l2 : List TxIn) (k : ℕ),
      l1.map TxIn.delSig = l2.map TxIn.delSig →
      (List.enumFrom k l1).mapM
          (fun ji => ji.2.encode (if i = ji.1 then ScriptOverride.substitute else ScriptOverride.empty))
        = (List.enumFrom k l2).mapM
            (fun ji => ji.2.encode (if i = ji.1 then ScriptOverride.substitute else ScriptOverride.empty)) := by
  intro l1
  induction l1 with
  | nil =>
    intro l2 k h
    have : l2 = [] := by
      cases l2 with
      | nil => rfl
      | cons b t2 => simp at h
    subst this
    rfl
  | cons a t ih =>
    intro l2 k h
    cases l2 with
    | nil => simp at h
    | cons b t2 =>
      simp only [List.map_cons, List.cons.injEq] at h
      obtain ⟨h1, h2⟩ := h
      have hm : (if i = k then ScriptOverride.substitute else ScriptOverride.empty)
          ≠ ScriptOverride.actual := by
        by_cases hik : i = k <;> simp [hik]
      show ((k, a) :: List.enumFrom (k + 1) t).mapM _
          = ((k, b) :: List.enumFrom (k + 1) t2).mapM _
      rw [List.mapM_cons, List.mapM_cons, ih t2 (k + 1) h2,
        txin_encode_nonactual_of_delSig_eq a b h1 _ hm]

/-- C10: for every valid input index, two transactions that are identical
except in the `script_sig` values of their inputs (absent or populated)
produce byte-identical signing messages: the sighash never reads
`script_sig`. -/
theorem tx_encode_sig_message_ignores_script_sig (tx1 tx2 : Tx) (i : ℕ)
    (_hi : i < tx1.tx_ins.length) (h : tx1.delSigs = tx2.delSigs) :
    Tx.encode tx1 (some i) = Tx.encode tx2 (some i) := by
  have hver : tx1.version = tx2.version := by
    have := congrArg Tx.version h
    simpa [Tx.delSigs] using this
  have houts : tx1.tx_outs = tx2.tx_outs := by
    have := congrArg Tx.tx_outs h
    simpa [Tx.delSigs] using this
  have hlock : tx1.locktime = tx2.locktime := by
    have := congrArg Tx.locktime h
    simpa [Tx.delSigs] using this
  have hmap : tx1.tx_ins.map TxIn.delSig = tx2.tx_ins.map TxIn.delSig := by
    have := congrArg Tx.tx_ins h
    simpa [Tx.delSigs] using this
  have hlen : tx1.tx_ins.length = tx2.tx_ins.length := by
    have := congrArg List.length hmap
    simpa using this
  have hins : tx1.tx_ins.enum.mapM
      (fun ji => ji.2.encode (if i = ji.1 then ScriptOverride.substitute else ScriptOverride.empty))
      = tx2.tx_ins.enum.mapM
        (fun ji => ji.2.encode (if i = ji.1 then ScriptOverride.substitute else ScriptOverride.empty)) :=
    mapM_enumFrom_delSig i tx1.tx_ins tx2.tx_ins 0 hmap
  simp only [Tx.encode]
  rw [hins, hver, houts, hlock, hlen]

/-- A concrete unsigned input used by the transaction witnesses. -/
def txinW : TxIn :=
  { net := .TEST
    prev_tx := List.replicate 32 7
    prev_index := 0
    prev_tx_script_pubkey := { cmds := [Cmd.op 118, Cmd.push [1, 2, 3]] }
    script_sig := none
    sequence := 0xFFFFFFFF }

/-- A concrete two-input one-output transaction used by the transaction
witnesses. -/
def txW : Tx :=
  { version := 1
    tx_ins := [txinW, { txinW with prev_index := 1 }]
    tx_outs := [{ amount := 95000, script_pubkey := { cmds := [Cmd.op 118] } }]
    locktime := 0 }

/-- Witness for C1 at the concrete transaction `txW` and input index 0. -/
theorem tx_encode_sig_index_substitutes_witness :
    (txW.tx_ins ≠ [] ∧ 0 < txW.tx_ins.length)
      ∧ Tx.encode txW (some 0)
          = (Tx.encode (sighashSubstitute txW 0) none).map fun bs => bs ++ [1, 0, 0, 0] :=
  ⟨⟨by decide, by decide⟩, tx_encode_sig_index_substitutes txW 0 (by decide) (by decide)⟩

/-- The same transaction as `txW` with input 0's unlocking script populated. -/
def txWsigned : Tx :=
  { txW with
    tx_ins := [{ txinW with script_sig := some { cmds := [Cmd.push [9, 9]] } },
      { txinW with prev_index := 1 }] }

/-- Witness for C10: `txW` (unlocking script absent) and `txWsigned`
(unlocking script populated) yield the same signing message for input 0. -/
theorem tx_encode_sig_message_ignores_script_sig_witness :
    (0 < txW.tx_ins.length ∧ txW.delSigs = txWsigned.delSigs)
      ∧ Tx.encode txW (some 0) = Tx.encode txWsigned (some 0) :=
  ⟨⟨by decide, by decide⟩,
    tx_encode_sig_message_ignores_script_sig txW txWsigned 0 (by decide) (by decide)⟩

/-! ## Bridge to the Mathlib Weierstrass group (for the group-law claim) -/

/-- The short Weierstrass curve over `ZMod N` with the coefficients of the
source `Curve` `c`. -/
def toW (c : Curve) (N : ℕ) : WeierstrassCurve.Affine (ZMod N) :=
  { a₁ := 0, a₂ := 0, a₃ := 0, a₄ := (c.a : ZMod N), a₆ := (c.b : ZMod N) }

theorem toW_a1 (c : Curve) (N : ℕ) : (toW c N).a₁ = 0 := rfl

theorem toW_a2 (c : Curve) (N : ℕ) : (toW c N).a₂ = 0 := rfl

theorem toW_a3 (c : Curve) (N : ℕ) : (toW c N).a₃ = 0 := rfl

theorem toW_a4 (c : Curve) (N : ℕ) : (toW c N).a₄ = (c.a : ZMod N) := rfl

theorem toW_a6 (c : Curve) (N : ℕ) : (toW c N).a₆ = (c.b : ZMod N) := rfl

/-- Correspondence between a source `Point` and a Mathlib nonsingular point:
the source point is the infinity sentinel and the Mathlib point is zero, or
the source point carries the curve `c`, has coordinates reduced to
`[0, c.p)`, and its coordinates cast to the Mathlib point's coordinates. -/
def Corresponds (c : Curve) (N : ℕ) : Point → (toW c N).Point → Prop
  | .inf, .zero => True
  | .mk c2 x y, @WeierstrassCurve.Affine.Point.some _ _ _ xb yb _ =>
    c = c2 ∧ 0 ≤ x ∧ x < c.p ∧ 0 ≤ y ∧ y < c.p ∧ (x : ZMod N) = xb ∧ (y : ZMod N) = yb
  | _, _ => False

/-- The infinity sentinel corresponds to the Mathlib zero. -/
theorem corr_inf (c : Curve) (N : ℕ) : Corresponds c N Point.inf 0 :=
  trivial

/-- Only the Mathlib zero corresponds to the infinity sentinel. -/
theorem corr_inf_right {c : Curve} {N : ℕ} {Q : (toW c N).Point}
    (h : Corresponds c N Point.inf Q) : Q = 0 := by
  cases Q with
  | zero => rfl
  | some h2 => exact h.elim

/-- Integer casts into `ZMod N` are injective on `[0, N)`. -/
theorem int_cast_inj_of_lt {N : ℕ} {x1 x2 : ℤ} (h1 : 0 ≤ x1) (h2 : x1 < (N : ℤ))
    (h3 : 0 ≤ x2) (h4 : x2 < (N : ℤ)) (h : (x1 : ZMod N) = (x2 : ZMod N)) : x1 = x2 := by
  have hmods := (ZMod.intCast_eq_intCast_iff' x1 x2 N).mp h
  rwa [Int.emod_eq_of_lt h1 h2, Int.emod_eq_of_lt h3 h4] at hmods

/-- A source point corresponds to at most one Mathlib point, and conversely
two source points corresponding to the same Mathlib point are equal. -/
theorem corr_right_unique {c : Curve} {N : ℕ} (hc : c.p = (N : ℤ)) {P Q : Point}
    {X : (toW c N).Point} (hP : Corresponds c N P X) (hQ : Corresponds c N Q X) : P = Q := by
  cases X with
  | zero =>
    cases P with
    | inf =>
      cases Q with
      | inf => rfl
      | mk c2 x y => exact hQ.elim
    | mk c2 x y => exact hP.elim
  | some hX =>
    cases P with
    | inf => exact hP.elim
    | mk cp xp yp =>
      cases Q with
      | inf => exact hQ.elim
      | mk cq xq yq =>
        obtain ⟨hc1, hx1a, hx1b, hy1a, hy1b, hxc1, hyc1⟩ := hP
        obtain ⟨hc2, hx2a, hx2b, hy2a, hy2b, hxc2, hyc2⟩ := hQ
        subst hc1
        subst hc2
        rw [hc] at hx1b hy1b hx2b hy2b
        have hx : xp = xq := int_cast_inj_of_lt hx1a hx1b hx2a hx2b (by rw [hxc1, hxc2])
        have hy : yp = yq := int_cast_inj_of_lt hy1a hy1b hy2a hy2b (by rw [hyc1, hyc2])
        rw [hx, hy]

/-- Casting an integer remainder mod `N` into `ZMod N` is casting the
integer. -/
theorem int_cast_emod_zmod (a : ℤ) (N : ℕ) : ((a % (N : ℤ) : ℤ) : ZMod N) = (a : ZMod N) := by
  rw [ZMod.intCast_eq_intCast_iff']
  exact Int.emod_emod_of_dvd a dvd_rfl

/-- The source's modular inverse casts to the field inverse in `ZMod N` for
`N` prime and `a` a unit. -/
theorem inv_cast_zmod (N : ℕ) (hp : N.Prime) (a : ℤ) (ha : (a : ZMod N) ≠ 0) :
    ((inv a (N : ℤ) : ℤ) : ZMod N) = (a : ZMod N)⁻¹ := by
  have hN : 1 < N := hp.one_lt
  have hdvd : ¬ ((N : ℤ) ∣ a) := fun hd =>
    ha ((ZMod.intCast_zmod_eq_zero_iff_dvd a N).mpr hd)
  have hdvd2 : ¬ (N ∣ a.natAbs) := fun hd =>
    hdvd (by rwa [← Int.natAbs_dvd_natAbs, Int.natAbs_ofNat])
  have hgcd : Int.gcd a (N : ℤ) = 1 := by
    rw [Int.gcd_def, Int.natAbs_ofNat]
    exact Nat.Coprime.symm (hp.coprime_iff_not_dvd.mpr hdvd2)
  obtain ⟨h0, h1, h2⟩ := inv_returns_modular_inverse a (N : ℤ) (by exact_mod_cast hN) hgcd
  have h3 : ((a * inv a (N : ℤ)) % (N : ℤ) : ℤ) = 1 % (N : ℤ) := by
    rw [h2, Int.emod_eq_of_lt (by norm_num) (by exact_mod_cast hN)]
  have h4 : ((a * inv a (N : ℤ) : ℤ) : ZMod N) = ((1 : ℤ) : ZMod N) :=
    (ZMod.intCast_eq_intCast_iff' _ _ _).mpr h3
  push_cast at h4
  exact (ZMod.inv_eq_of_mul_eq_one N _ _ h4).symm

/-- Shared affine step of the addition bridge: if the source slope value `m`
casts to the Mathlib slope, the source's new point (both coordinates reduced
mod `p`) corresponds to the Mathlib sum. -/
theorem corr_add_affine {c : Curve} {N : ℕ} [Fact (Nat.Prime N)]
    (hc : c.p = (N : ℤ)) (hNpos : 0 < N)
    (x1 y1 x2 y2 m : ℤ)
    (h1 : (toW c N).Nonsingular (x1 : ZMod N) (y1 : ZMod N))
    (h2 : (toW c N).Nonsingular (x2 : ZMod N) (y2 : ZMod N))
    (hxy : (x1 : ZMod N) = (x2 : ZMod N) →
      (y1 : ZMod N) ≠ (toW c N).negY (x2 : ZMod N) (y2 : ZMod N))
    (hm : (m : ZMod N)
      = (toW c N).slope (x1 : ZMod N) (x2 : ZMod N) (y1 : ZMod N) (y2 : ZMod N)) :
    Corresponds c N
      (Point.mk c ((m ^ 2 - x1 - x2) % c.p)
        ((-(m * ((m ^ 2 - x1 - x2) % c.p - x1) + y1)) % c.p))
      (WeierstrassCurve.Affine.Point.some h1 + WeierstrassCurve.Affine.Point.some h2) := by
  rw [WeierstrassCurve.Affine.Point.add_of_imp hxy]
  have hNZ : (N : ℤ) ≠ 0 := by positivity
  have hNpos' : (0 : ℤ) < (N : ℤ) := by positivity
  have hxcast : (((m ^ 2 - x1 - x2) % c.p : ℤ) : ZMod N)
      = (toW c N).addX (x1 : ZMod N) (x2 : ZMod N)
        ((toW c N).slope (x1 : ZMod N) (x2 : ZMod N) (y1 : ZMod N) (y2 : ZMod N)) := by
    rw [hc, int_cast_emod_zmod]
    push_cast
    rw [hm, WeierstrassCurve.Affine.addX, toW_a1, toW_a2]
    ring
  refine ⟨rfl, Int.emod_nonneg _ (by rw [hc]; exact hNZ), by rw [hc]; exact Int.emod_lt_of_pos _ hNpos',
    Int.emod_nonneg _ (by rw [hc]; exact hNZ), by rw [hc]; exact Int.emod_lt_of_pos _ hNpos',
    hxcast, ?_⟩
  rw [hc, int_cast_emod_zmod]
  push_cast
  rw [hm, WeierstrassCurve.Affine.addY, WeierstrassCurve.Affine.negAddY,
    WeierstrassCurve.Affine.negY, WeierstrassCurve.Affine.addX, toW_a1, toW_a2, toW_a3]
  ring

/-- The addition bridge: the source `Point.add` corresponds to the Mathlib
group addition, over an odd prime field on a curve with no point of order
two. -/
theorem corr_add {c : Curve} {N : ℕ} [Fact (Nat.Prime N)] (hNbig : 2 < N)
    (hc : c.p = (N : ℤ))
    (h2tor : ∀ x : ZMod N, ¬ (toW c N).Equation x 0)
    {P Q : Point} {P' Q' : (toW c N).Point}
    (hP : Corresponds c N P P') (hQ : Corresponds c N Q Q') :
    Corresponds c N (P.add Q) (P' + Q') := by
  have hNpos : 0 < N := by omega
  rcases P' with _ | @⟨xb1, yb1, h1⟩
  · have hPinf : P = Point.inf := by
      cases P with
      | inf => rfl
      | mk c2 x y => exact hP.elim
    subst hPinf
    rw [WeierstrassCurve.Affine.Point.zero_def, zero_add]
    exact hQ
  · rcases P with _ | ⟨cp, x1, y1⟩
    · exact hP.elim
    obtain ⟨hcp, hx1a, hx1b, hy1a, hy1b, hxc1, hyc1⟩ := hP
    subst hcp
    subst hxc1
    subst hyc1
    rcases Q' with _ | @⟨xb2, yb2, h2⟩
    · have hQinf : Q = Point.inf := by
        cases Q with
        | inf => rfl
        | mk c2 x y => exact hQ.elim
      subst hQinf
      rw [WeierstrassCurve.Affine.Point.zero_def, add_zero]
      exact ⟨rfl, hx1a, hx1b, hy1a, hy1b, rfl, rfl⟩
    · rcases Q with _ | ⟨cq, x2, y2⟩
      · exact hQ.elim
      obtain ⟨hcq, hx2a, hx2b, hy2a, hy2b, hxc2, hyc2⟩ := hQ
      subst hcq
      subst hxc2
      subst hyc2
      have E1 : (toW c N).Equation (x1 : ZMod N) (y1 : ZMod N) := h1.1
      have E2 : (toW c N).Equation (x2 : ZMod N) (y2 : ZMod N) := h2.1
      by_cases hx : x1 = x2
      · by_cases hy : y1 = y2
        · -- doubling
          subst hx
          subst hy
          have hcond : ¬ (x1 = x1 ∧ y1 ≠ y1) := by simp
          have hybne : (y1 : ZMod N) ≠ 0 := fun h0 => h2tor (x1 : ZMod N) (h0 ▸ E1)
          have h2ne : (2 : ZMod N) ≠ 0 := by
            intro h0
            have hdvd : N ∣ 2 := by
              have h0n : ((2 : ℕ) : ZMod N) = 0 := by exact_mod_cast h0
              exact (ZMod.natCast_zmod_eq_zero_iff_dvd 2 N).mp h0n
            have := Nat.le_of_dvd (by norm_num) hdvd
            omega
          have hden : ((2 * y1 : ℤ) : ZMod N) ≠ 0 := by
            push_cast
            exact mul_ne_zero h2ne hybne
          have hnegY : (toW c N).negY (x1 : ZMod N) (y1 : ZMod N) = -(y1 : ZMod N) := by
            rw [WeierstrassCurve.Affine.negY, toW_a1, toW_a3]
            ring
          have hyne : (y1 : ZMod N) ≠ (toW c N).negY (x1 : ZMod N) (y1 : ZMod N) := by
            rw [hnegY]
            intro hcontra
            apply hden
            push_cast
            linear_combination hcontra
          have hm : (((3 * x1 ^ 2 + c.a) * inv (2 * y1) c.p : ℤ) : ZMod N)
              = (toW c N).slope (x1 : ZMod N) (x1 : ZMod N) (y1 : ZMod N) (y1 : ZMod N) := by
            rw [WeierstrassCurve.Affine.slope_of_Y_ne rfl hyne, hc]
            push_cast [inv_cast_zmod N Fact.out (2 * y1) hden]
            rw [toW_a1, toW_a2, toW_a4, hnegY]
            field_simp
            rw [← two_mul, mul_div_assoc, div_self (mul_ne_zero h2ne hybne), mul_one]
          have hadd : Point.add (Point.mk c x1 y1) (Point.mk c x1 y1)
              = Point.mk c
                ((((3 * x1 ^ 2 + c.a) * inv (2 * y1) c.p) ^ 2 - x1 - x1) % c.p)
                ((-((3 * x1 ^ 2 + c.a) * inv (2 * y1) c.p
                    * (((((3 * x1 ^ 2 + c.a) * inv (2 * y1) c.p) ^ 2 - x1 - x1) % c.p) - x1)
                    + y1)) % c.p) := by
            simp [Point.add, hcond]
          rw [hadd]
          exact corr_add_affine hc hNpos x1 y1 x1 y1 _ h1 h2 (fun _ => hyne) hm
        · -- vertical: inverses, sum is infinity
          have hcond : x1 = x2 ∧ y1 ≠ y2 := ⟨hx, hy⟩
          have hadd : Point.add (Point.mk c x1 y1) (Point.mk c x2 y2) = Point.inf := by
            simp [Point.add, hcond]
          have hxbeq : (x1 : ZMod N) = (x2 : ZMod N) := by rw [hx]
          have hybne : (y1 : ZMod N) ≠ (y2 : ZMod N) := by
            intro hcontra
            rw [hc] at hy1b hy2b
            exact hy (int_cast_inj_of_lt hy1a hy1b hy2a hy2b hcontra)
          have hyeq : (y1 : ZMod N) = (toW c N).negY (x2 : ZMod N) (y2 : ZMod N) :=
            (WeierstrassCurve.Affine.Y_eq_of_X_eq E1 E2 hxbeq).resolve_left hybne
          rw [hadd, WeierstrassCurve.Affine.Point.add_of_Y_eq hxbeq hyeq]
          exact corr_inf c N
      · -- chord
        have hcond : ¬ (x1 = x2 ∧ y1 ≠ y2) := fun h => hx h.1
        have hxbne : (x1 : ZMod N) ≠ (x2 : ZMod N) := by
          intro hcontra
          rw [hc] at hx1b hx2b
          exact hx (int_cast_inj_of_lt hx1a hx1b hx2a hx2b hcontra)
        have hdiffne : ((x1 - x2 : ℤ) : ZMod N) ≠ 0 := by
          push_cast
          exact sub_ne_zero_of_ne hxbne
        have hm : (((y1 - y2) * inv (x1 - x2) c.p : ℤ) : ZMod N)
            = (toW c N).slope (x1 : ZMod N) (x2 : ZMod N) (y1 : ZMod N) (y2 : ZMod N) := by
          rw [WeierstrassCurve.Affine.slope_of_X_ne hxbne, hc]
          push_cast [inv_cast_zmod N Fact.out (x1 - x2) hdiffne]
          rw [div_eq_mul_inv]
        have hadd : Point.add (Point.mk c x1 y1) (Point.mk c x2 y2)
            = Point.mk c
              ((((y1 - y2) * inv (x1 - x2) c.p) ^ 2 - x1 - x2) % c.p)
              ((-((y1 - y2) * inv (x1 - x2) c.p
                  * (((((y1 - y2) * inv (x1 - x2) c.p) ^ 2 - x1 - x2) % c.p) - x1)
                  + y1)) % c.p) := by
          simp [Point.add, hcond, hx]
        rw [hadd]
        exact corr_add_affine hc hNpos x1 y1 x2 y2 _ h1 h2 (fun hab => absurd hab hxbne) hm

/-- The double-and-add loop corresponds to `R + k • A` in the Mathlib
group. -/
theorem corr_rmulLoop {c : Curve} {N : ℕ} [Fact (Nat.Prime N)] (hNbig : 2 < N)
    (hc : c.p = (N : ℤ))
    (h2tor : ∀ x : ZMod N, ¬ (toW c N).Equation x 0) :
    ∀ (fuel k : ℕ) (res app : Point) (R A : (toW c N).Point),
      k < fuel → Corresponds c N res R → Corresponds c N app A →
      Corresponds c N (rmulLoop fuel k res app) (R + k • A) := by
  intro fuel
  induction fuel with
  | zero =>
    intro k res app R A hk
    omega
  | succ fuel ih =>
    intro k res app R A hk hres happ
    by_cases hk0 : k = 0
    · subst hk0
      rw [show rmulLoop (fuel + 1) 0 res app = res from by simp [rmulLoop]]
      rw [zero_nsmul, add_zero]
      exact hres
    · have hstep : rmulLoop (fuel + 1) k res app
          = rmulLoop fuel (k >>> 1) (if k &&& 1 = 1 then res.add app else res)
            (app.add app) := by
        simp [rmulLoop, hk0]
      rw [hstep]
      have happ2 : Corresponds c N (app.add app) (A + A) :=
        corr_add hNbig hc h2tor happ happ
      have hres2 : Corresponds c N (if k &&& 1 = 1 then res.add app else res)
          (R + (k % 2) • A) := by
        rw [Nat.and_one_is_mod]
        by_cases hpar : k % 2 = 1
        · rw [if_pos hpar, hpar, one_nsmul]
          exact corr_add hNbig hc h2tor hres happ
        · have hz : k % 2 = 0 := by omega
          rw [if_neg hpar, hz, zero_nsmul, add_zero]
          exact hres
      have hlt : k >>> 1 < fuel := by
        rw [Nat.shiftRight_one]
        have := Nat.div_lt_self (Nat.pos_of_ne_zero hk0) (by norm_num : 1 < 2)
        omega
      have hrec := ih (k >>> 1) _ (app.add app) (R + (k % 2) • A) (A + A) hlt hres2 happ2
      have hsm : R + (k % 2) • A + (k >>> 1) • (A + A) = R + k • A := by
        rw [Nat.shiftRight_one, ← two_nsmul, smul_smul, add_assoc, ← add_nsmul]
        have hksplit : k % 2 + k / 2 * 2 = k := by omega
        rw [hksplit]
      rwa [hsm] at hrec

/-- The source scalar multiplication corresponds to the Mathlib `k • G`. -/
theorem corr_rmul {c : Curve} {N : ℕ} [Fact (Nat.Prime N)] (hNbig : 2 < N)
    (hc : c.p = (N : ℤ))
    (h2tor : ∀ x : ZMod N, ¬ (toW c N).Equation x 0)
    {Gp : Point} {Gw : (toW c N).Point} (hG : Corresponds c N Gp Gw) (k : ℕ) :
    Corresponds c N (Point.rmul k Gp) (k • Gw) := by
  have h := corr_rmulLoop hNbig hc h2tor (k + 1) k Point.inf Gp 0 Gw
    (Nat.lt_succ_self k) (corr_inf c N) hG
  rw [zero_add] at h
  exact h

/-- C5: for the implemented point addition and double-and-add scalar
multiplication, `scalar_mul(k1, G) + scalar_mul(k2, G)
= scalar_mul((k1 + k2) mod n, G)` for all `k1, k2 ∈ [1, n − 1]`, on any
curve whose modulus is an odd prime, which carries no point of order two,
and whose base point `G` corresponds to a nonsingular curve point and
satisfies `n·G = infinity` (G generates a subgroup whose order divides `n`).
The secp256k1 parameters satisfy these hypotheses; discharging them inside
the kernel is only feasible for small curves, as in the witness. -/
theorem rmul_add_rmul_eq_rmul_mod (c : Curve) (N : ℕ) (hprime : Nat.Prime N)
    (hNbig : 2 < N) (hc : c.p = (N : ℤ))
    (h2tor : ∀ x : ZMod N, ¬ (toW c N).Equation x 0)
    (Gp : Point) (Gw : (toW c N).Point) (hG : Corresponds c N Gp Gw)
    (n : ℕ) (hord : Point.rmul n Gp = Point.inf)
    (k1 k2 : ℕ) (_hk1a : 1 ≤ k1) (_hk1b : k1 ≤ n - 1) (_hk2a : 1 ≤ k2) (_hk2b : k2 ≤ n - 1) :
    (Point.rmul k1 Gp).add (Point.rmul k2 Gp) = Point.rmul ((k1 + k2) % n) Gp := by
  haveI : Fact (Nat.Prime N) := ⟨hprime⟩
  have hordW : n • Gw = 0 := by
    have h1 := corr_rmul hNbig hc h2tor hG n
    rw [hord] at h1
    exact corr_inf_right h1
  have hsum : k1 • Gw + k2 • Gw = ((k1 + k2) % n) • Gw := by
    rw [← add_nsmul]
    conv_lhs => rw [← Nat.mod_add_div (k1 + k2) n]
    rw [add_nsmul, mul_nsmul, hordW, nsmul_zero, add_zero]
  have hL : Corresponds c N ((Point.rmul k1 Gp).add (Point.rmul k2 Gp))
      (((k1 + k2) % n) • Gw) := by
    have h2 := corr_add hNbig hc h2tor (corr_rmul hNbig hc h2tor hG k1)
      (corr_rmul hNbig hc h2tor hG k2)
    rwa [hsum] at h2
  exact corr_right_unique hc hL (corr_rmul hNbig hc h2tor hG ((k1 + k2) % n))

/-- Witness curve for the group-law claim: `y² = x³ + 2` over `GF(7)` (odd
prime modulus, discriminant nonzero, no point with `y = 0`). -/
def c5curve : Curve :=
  { p := 7, a := 0, b := 2 }

/-- Witness base point `(0, 3)` on the witness curve. -/
def c5G : Point :=
  Point.mk c5curve 0 3

/-- The witness base point is nonsingular on the witness curve. -/
theorem c5Gns : (toW c5curve 7).Nonsingular ((0 : ℤ) : ZMod 7) ((3 : ℤ) : ZMod 7) := by
  rw [WeierstrassCurve.Affine.nonsingular_iff', WeierstrassCurve.Affine.equation_iff']
  decide

/-- The witness curve has no point of order two. -/
theorem c5h2tor : ∀ x : ZMod 7, ¬ (toW c5curve 7).Equation x 0 := by
  intro x
  rw [WeierstrassCurve.Affine.equation_iff]
  revert x
  decide

/-- The witness base point corresponds to its Mathlib image. -/
theorem c5hG : Corresponds c5curve 7 c5G (WeierstrassCurve.Affine.Point.some c5Gns) :=
  ⟨rfl, by decide, by decide, by decide, by decide, rfl, rfl⟩

/-- Witness for C5 on the small curve: `Nat.Prime 7`, `9 • G = infinity`,
and `2G + 3G = ((2 + 3) mod 9) G` with the implemented operations. -/
theorem rmul_add_rmul_eq_rmul_mod_witness :
    Nat.Prime 7
      ∧ Point.rmul 9 c5G = Point.inf
      ∧ (Point.rmul 2 c5G).add (Point.rmul 3 c5G) = Point.rmul ((2 + 3) % 9) c5G :=
  ⟨by norm_num, by decide,
    rmul_add_rmul_eq_rmul_mod c5curve 7 (by norm_num) (by decide) rfl c5h2tor c5G
      (WeierstrassCurve.Affine.Point.some c5Gns) c5hG 9 (by decide) 2 3
      (by decide) (by decide) (by decide) (by decide)⟩

